import Mathlib

/-!
Verification of the incremental document-line model (`src/lines`).

The development shallowly embeds the line-model code: the text-storage
primitive is a list of per-line byte lengths, the line/folded-line/visual-line
builders of `update_lines` (mod.rs) and `init_all_origin_line_new`
(line/update_lines.rs) are translated into pure Lean functions, and the
phantom-text collection of `phantom_text` (mod.rs) is translated with the
fragments it collects.  Modules of the repository that are referenced but not
part of the four source files (`delta_compute`, `line`, `phantom_text`,
`fold`, `buffer`, `word`) are modelled from the specification where needed;
each such definition carries a doc comment saying so.
-/

namespace Doc

/-- Model of the text-storage primitive (`crate::lines::buffer`, not under
`src/`): the buffer is the list of byte lengths of its origin lines, the line
ending included in every line but possibly the last.  `offset_of_line`,
`line_of_offset`, `last_line` and `len` are the queries the line model uses. -/
structure Buffer where
  lines : List Nat
  deriving DecidableEq, Repr

def Buffer.offset_of_line (b : Buffer) (n : Nat) : Nat :=
  ((b.lines.take n).map id).sum

def Buffer.len (b : Buffer) : Nat := b.lines.sum

def Buffer.lastLine (b : Buffer) : Nat := b.lines.length - 1

def Buffer.numLines (b : Buffer) : Nat := b.lines.length

def Buffer.lineLen (b : Buffer) (n : Nat) : Nat := b.lines.getD n 0

/-- Helper for `Buffer.line_of_offset`: index of the line containing the
offset, walking the per-line lengths. -/
def lineOfOffsetAux : List Nat → Nat → Nat
  | [], _ => 0
  | l :: rest, o => if o < l then 0 else 1 + lineOfOffsetAux rest (o - l)

def Buffer.line_of_offset (b : Buffer) (o : Nat) : Nat :=
  lineOfOffsetAux b.lines o

theorem offset_of_line_eq_sum_take (b : Buffer) (n : Nat) :
    b.offset_of_line n = (b.lines.take n).sum := by
  simp [Buffer.offset_of_line]

theorem offset_of_line_zero (b : Buffer) : b.offset_of_line 0 = 0 := rfl

theorem offset_of_line_all (b : Buffer) (n : Nat) (h : b.lines.length ≤ n) :
    b.offset_of_line n = b.len := by
  simp [offset_of_line_eq_sum_take, Buffer.len, List.take_of_length_le h]

theorem offset_of_line_succ (b : Buffer) (n : Nat) (h : n < b.lines.length) :
    b.offset_of_line (n + 1) = b.offset_of_line n + b.lineLen n := by
  simp only [offset_of_line_eq_sum_take, Buffer.lineLen]
  rw [List.take_succ, List.sum_append]
  have hn : b.lines[n]? = some (b.lines.getD n 0) := by
    rw [List.getD_eq_getElem _ _ h, List.getElem?_eq_getElem h]
  rw [hn]
  simp [Option.toList]

/-- The offset of the line containing a valid offset is at or before the
offset, and the offset falls strictly inside that line. -/
theorem lineOfOffsetAux_spec (ls : List Nat) (o : Nat) (h : o < ls.sum) :
    ((ls.take (lineOfOffsetAux ls o)).sum ≤ o ∧
      o - (ls.take (lineOfOffsetAux ls o)).sum < ls.getD (lineOfOffsetAux ls o) 0) ∧
      lineOfOffsetAux ls o < ls.length := by
  induction ls generalizing o with
  | nil => simp at h
  | cons l rest ih =>
    by_cases ho : o < l
    · simp [lineOfOffsetAux, ho]
    · have hrest : o - l < rest.sum := by
        simp only [List.sum_cons] at h
        omega
      have := ih (o - l) hrest
      simp only [lineOfOffsetAux, ho, if_false, Nat.add_comm 1 _]
      refine ⟨⟨?_, ?_⟩, ?_⟩
      · simp only [List.take_succ_cons, List.sum_cons]
        omega
      · simp only [List.take_succ_cons, List.sum_cons, List.getD_cons_succ]
        omega
      · simp only [List.length_cons]
        omega

theorem line_of_offset_spec (b : Buffer) (o : Nat) (h : o < b.len) :
    b.offset_of_line (b.line_of_offset o) ≤ o ∧
      o - b.offset_of_line (b.line_of_offset o) < b.lineLen (b.line_of_offset o) ∧
      b.line_of_offset o < b.lines.length := by
  have := lineOfOffsetAux_spec b.lines o h
  refine ⟨?_, ?_, this.2⟩
  · rw [offset_of_line_eq_sum_take]; exact this.1.1
  · rw [offset_of_line_eq_sum_take]; exact this.1.2

/-- Byte interval `[start, stop)` (`lapce_xi_rope::Interval`; the source field
`end` is a Lean keyword, rendered here as `stop`). -/
structure Interval where
  start : Nat
  stop : Nat
  deriving DecidableEq, Repr, Inhabited

/-- `Interval::is_empty` of `lapce_xi_rope`: `end <= start`. -/
def Interval.isEmpty (i : Interval) : Bool := i.stop ≤ i.start

/-- Decides that a list of intervals is a gap-free, non-overlapping cover of
`[a, t)` in order: each interval starts where the previous one stopped. -/
def chainB : Nat → List Interval → Nat → Bool
  | a, [], t => a == t
  | a, iv :: r, t => (iv.start == a) && chainB iv.stop r t

/-- `OriginLine` as built by `update_lines` (mod.rs:320-325): per-line index
and start offset. -/
structure OriginLineM where
  line_index : Nat
  start_offset : Nat
  deriving DecidableEq, Repr, Inhabited

/-- `OriginFoldedLine` as built by `update_lines` (mod.rs:391-397), without
the opaque `text_layout`. -/
structure OriginFoldedLineM where
  line_index : Nat
  origin_line_start : Nat
  origin_line_end : Nat
  origin_interval : Interval
  deriving DecidableEq, Repr, Inhabited

/-- `VisualLine` as built by `update_lines` (mod.rs:336-389), without the
opaque `text_layout` and without `origin_interval` (the latter is derived
through `cursor_position_of_final_col`, which none of the claims about this
loop need). -/
structure VisualLineM where
  line_index : Nat
  visual_interval : Interval
  origin_line : Nat
  origin_folded_line : Nat
  origin_folded_line_sub_index : Nat
  deriving DecidableEq, Repr, Inhabited

/-- Origin-line part of the `update_lines` loop (mod.rs:299-325,399).
`foldEnd current` stands for `text_layout.phantom_text.last_line`, the last
origin line merged into the rendered unit that starts at `current` (the
folding decision lives in the `fold`/`phantom_text` modules, which are not
under `src/`; per the spec §4.3 it maps a line at or after `current`).  Each
merged line is pushed with the unit's `start_offset`
(`offset_of_line current`), exactly as the source does.  The `fuel` argument
bounds the `while` loop by the line count. -/
def originLinesB (b : Buffer) (foldEnd : Nat → Nat) : Nat → Nat → List OriginLineM
  | _, 0 => []
  | current, fuel + 1 =>
    if current ≤ b.lastLine then
      let so := b.offset_of_line current
      let fe := foldEnd current
      ((List.range' current (fe + 1 - current)).map (fun i => ⟨i, so⟩))
        ++ originLinesB b foldEnd (fe + 1) fuel
    else []

/-- The `origin_lines` vector `update_lines` produces. -/
def update_lines_origin (b : Buffer) (foldEnd : Nat → Nat) : List OriginLineM :=
  originLinesB b foldEnd 0 (b.lastLine + 1)

/-- Folded-line part of the `update_lines` loop (mod.rs:299-401): one
`OriginFoldedLine` per rendered unit, with
`origin_interval = [offset_of_line origin_line_start,
offset_of_line (origin_line_end + 1))` and `current_line` advancing to
`origin_line_end + 1`. -/
def foldedLinesB (b : Buffer) (foldEnd : Nat → Nat) :
    Nat → Nat → Nat → List OriginFoldedLineM
  | _, _, 0 => []
  | idx, current, fuel + 1 =>
    if current ≤ b.lastLine then
      let fe := foldEnd current
      { line_index := idx, origin_line_start := current, origin_line_end := fe,
        origin_interval := ⟨b.offset_of_line current, b.offset_of_line (fe + 1)⟩ }
        :: foldedLinesB b foldEnd (idx + 1) (fe + 1) fuel
    else []

/-- The `origin_folded_lines` vector `update_lines` produces. -/
def update_lines_folded (b : Buffer) (foldEnd : Nat → Nat) : List OriginFoldedLineM :=
  foldedLinesB b foldEnd 0 0 (b.lastLine + 1)

/-- Inner visual-line loop of `update_lines` (mod.rs:336-389) for one folded
line, over the wrap segments' glyph counts (`layout.glyphs.len()` per
sub-layout, produced by the external shaping collaborator).  A zero-glyph
segment pushes a zero-width line with `origin_folded_line_sub_index = 0` and
leaves `visual_offset_start` and the visual index unchanged; a non-empty
segment of `L` glyphs pushes `visual_interval = [vstart, vstart + L)` and then
sets `visual_offset_start = visual_offset_end`, that is `vstart + L - 1`
(mod.rs:387). -/
def visualRowGo (foldedIdx originLineStart : Nat) :
    List Nat → Nat → Nat → Nat → List VisualLineM
  | [], _, _, _ => []
  | l :: rest, subIdx, vstart, vIdx =>
    if l = 0 then
      { line_index := vIdx, visual_interval := ⟨vstart, vstart⟩,
        origin_line := originLineStart, origin_folded_line := foldedIdx,
        origin_folded_line_sub_index := 0 }
        :: visualRowGo foldedIdx originLineStart rest (subIdx + 1) vstart vIdx
    else
      { line_index := vIdx, visual_interval := ⟨vstart, vstart + l⟩,
        origin_line := originLineStart, origin_folded_line := foldedIdx,
        origin_folded_line_sub_index := subIdx }
        :: visualRowGo foldedIdx originLineStart rest (subIdx + 1) (vstart + l - 1) (vIdx + 1)

/-- The ordered `visual_interval`s `update_lines` assigns to the visual lines
of one folded line (the loop starts each folded line at
`visual_offset_start = 0`, mod.rs:332). -/
def visualIntervalsOfLayouts (layouts : List Nat) : List Interval :=
  (visualRowGo 0 0 layouts 0 0 0).map (fun v => v.visual_interval)

theorem offset_of_line_strict_mono (b : Buffer)
    (hpos : ∀ k, k + 1 < b.lines.length → 1 ≤ b.lines.getD k 0) :
    ∀ j i, i < j → j < b.lines.length → b.offset_of_line i < b.offset_of_line j := by
  intro j
  induction j with
  | zero => intro i hij _; omega
  | succ j ih =>
    intro i hij hj
    have hjlen : j < b.lines.length := by omega
    have hsucc := offset_of_line_succ b j hjlen
    by_cases hi : i = j
    · subst hi
      have := hpos i hj
      simp only [Buffer.lineLen] at hsucc
      omega
    · have := ih i (by omega) hjlen
      simp only [Buffer.lineLen] at hsucc
      omega

theorem originLinesB_of_id (b : Buffer) (foldEnd : Nat → Nat)
    (hid : ∀ l, foldEnd l = l) (hne : b.lines ≠ []) :
    ∀ fuel current, b.lines.length ≤ current + fuel →
      originLinesB b foldEnd current fuel =
        (List.range' current (b.lines.length - current)).map
          (fun i => ⟨i, b.offset_of_line i⟩) := by
  have hlen : 1 ≤ b.lines.length := by
    cases hb : b.lines with
    | nil => exact absurd hb hne
    | cons x xs => simp
  intro fuel
  induction fuel with
  | zero =>
    intro current hcur
    have : b.lines.length - current = 0 := by omega
    simp [originLinesB, this]
  | succ fuel ih =>
    intro current hcur
    by_cases hc : current ≤ b.lastLine
    · have hclt : current < b.lines.length := by
        simp only [Buffer.lastLine] at hc; omega
      rw [originLinesB]
      simp only [hc, if_true, hid current]
      have h1 : current + 1 - current = 1 := by omega
      rw [h1, List.range'_one, ih (current + 1) (by omega)]
      have h2 : b.lines.length - current = (b.lines.length - (current + 1)) + 1 := by omega
      rw [h2, List.range'_succ]
      simp
    · have hclt : b.lines.length ≤ current := by
        simp only [Buffer.lastLine] at hc; omega
      have : b.lines.length - current = 0 := by omega
      rw [originLinesB]
      simp [hc, this]

/-- On an unfolded document the origin-line vector is exactly one entry per
line with its own start offset. -/
theorem update_lines_origin_of_id (b : Buffer) (foldEnd : Nat → Nat)
    (hid : ∀ l, foldEnd l = l) (hne : b.lines ≠ []) :
    update_lines_origin b foldEnd =
      (List.range' 0 b.lines.length).map (fun i => ⟨i, b.offset_of_line i⟩) := by
  have hlen : 1 ≤ b.lines.length := by
    cases hb : b.lines with
    | nil => exact absurd hb hne
    | cons x xs => simp
  have := originLinesB_of_id b foldEnd hid hne (b.lastLine + 1) 0
    (by simp only [Buffer.lastLine]; omega)
  simpa [update_lines_origin] using this

/-- C3, counterexample.  Buffer with two lines of two bytes each
(for instance `"a\nb\n"` read as two origin lines), with a collapsed fold
merging origin lines 0 and 1 into one rendered unit
(`foldEnd 0 = 1`, i.e. `phantom_text.last_line = 1` for the unit starting at
line 0): `update_lines` pushes both merged origin lines with the unit's start
offset, so `origin_lines[1].start_offset = 0` while
`buffer.offset_of_line 1 = 2`, and `start_offset` is not strictly
increasing. -/
theorem origin_lines_fold_counterexample :
    ((update_lines_origin ⟨[2, 2]⟩ (fun _ => 1)).getD 1 default).start_offset = 0 ∧
    Buffer.offset_of_line ⟨[2, 2]⟩ 1 = 2 ∧
    ((update_lines_origin ⟨[2, 2]⟩ (fun _ => 1)).getD 1 default).start_offset ≠
      Buffer.offset_of_line ⟨[2, 2]⟩ 1 ∧
    ¬ (((update_lines_origin ⟨[2, 2]⟩ (fun _ => 1)).getD 0 default).start_offset <
        ((update_lines_origin ⟨[2, 2]⟩ (fun _ => 1)).getD 1 default).start_offset) := by
  decide

/-- C3, amended.  When no collapsed fold merges origin lines (every rendered
unit ends at the line it starts on), the origin-line vector built by
`update_lines` satisfies the claimed invariant: entry `i` is
`{ line_index := i, start_offset := offset_of_line i }`, and `start_offset`
is strictly increasing provided every line but the last is non-empty.  (With
a collapsed fold the merged lines instead all carry the unit's start offset,
see the counterexample.) -/
theorem origin_lines_unfolded_invariant (b : Buffer) (foldEnd : Nat → Nat)
    (hne : b.lines ≠ []) (hid : ∀ l, foldEnd l = l)
    (hpos : ∀ k, k + 1 < b.lines.length → 1 ≤ b.lines.getD k 0) :
    (∀ i, i < b.lines.length →
      (update_lines_origin b foldEnd).getD i default =
        ⟨i, b.offset_of_line i⟩) ∧
    (∀ i j, i < j → j < b.lines.length →
      ((update_lines_origin b foldEnd).getD i default).start_offset <
        ((update_lines_origin b foldEnd).getD j default).start_offset) := by
  have hmain := update_lines_origin_of_id b foldEnd hid hne
  have hget : ∀ i, i < b.lines.length →
      (update_lines_origin b foldEnd).getD i default = ⟨i, b.offset_of_line i⟩ := by
    intro i hi
    rw [hmain]
    have hlen : i < ((List.range' 0 b.lines.length).map
        (fun i => (⟨i, b.offset_of_line i⟩ : OriginLineM))).length := by
      simpa using hi
    rw [List.getD_eq_getElem _ _ hlen]
    simp
  refine ⟨hget, ?_⟩
  intro i j hij hj
  rw [hget i (by omega), hget j hj]
  exact offset_of_line_strict_mono b hpos j i hij hj

/-- C3, witness instantiation for the amended invariant: the two-line buffer
with no fold merges. -/
theorem origin_lines_unfolded_invariant_witness :
    (update_lines_origin ⟨[2, 2]⟩ (fun l => l)).getD 1 default =
      ⟨1, Buffer.offset_of_line ⟨[2, 2]⟩ 1⟩ ∧
    ((update_lines_origin ⟨[2, 2]⟩ (fun l => l)).getD 0 default).start_offset <
      ((update_lines_origin ⟨[2, 2]⟩ (fun l => l)).getD 1 default).start_offset :=
  ⟨(origin_lines_unfolded_invariant ⟨[2, 2]⟩ (fun l => l) (by decide)
      (fun _ => rfl)
      (by
        intro k hk
        have hk2 : k + 1 < 2 := hk
        have h0 : k = 0 := by omega
        subst h0
        decide)).1 1 (by decide),
    (origin_lines_unfolded_invariant ⟨[2, 2]⟩ (fun l => l) (by decide)
      (fun _ => rfl)
      (by
        intro k hk
        have hk2 : k + 1 < 2 := hk
        have h0 : k = 0 := by omega
        subst h0
        decide)).2 0 1 (by decide) (by decide)⟩

theorem foldedLinesB_stop (b : Buffer) (foldEnd : Nat → Nat)
    (idx current fuel : Nat) (h : b.lastLine < current) :
    foldedLinesB b foldEnd idx current fuel = [] := by
  cases fuel with
  | zero => rfl
  | succ fuel => rw [foldedLinesB]; simp [Nat.not_le_of_lt h]

theorem foldedLinesB_chain (b : Buffer) (foldEnd : Nat → Nat)
    (hfe : ∀ l, l < b.lines.length → l ≤ foldEnd l ∧ foldEnd l < b.lines.length) :
    ∀ fuel idx current, current < b.lines.length →
      b.lines.length - current ≤ fuel →
      chainB (b.offset_of_line current)
          ((foldedLinesB b foldEnd idx current fuel).map
            (fun f => f.origin_interval)) b.len = true ∧
      ((foldedLinesB b foldEnd idx current fuel).map
          (fun f => List.range' f.origin_line_start
            (f.origin_line_end + 1 - f.origin_line_start))).flatten =
        List.range' current (b.lines.length - current) := by
  intro fuel
  induction fuel with
  | zero => intro idx current hcur hfuel; omega
  | succ fuel ih =>
    intro idx current hcur hfuel
    have hc : current ≤ b.lastLine := by simp only [Buffer.lastLine]; omega
    obtain ⟨hle, hlt⟩ := hfe current hcur
    rw [foldedLinesB]
    simp only [hc, if_true, List.map_cons, chainB, beq_self_eq_true, Bool.true_and,
      List.flatten_cons]
    by_cases hend : foldEnd current + 1 < b.lines.length
    · have hrec := ih (idx + 1) (foldEnd current + 1) hend (by omega)
      refine ⟨hrec.1, ?_⟩
      rw [hrec.2]
      have e1 : current + (foldEnd current + 1 - current) = foldEnd current + 1 := by
        omega
      have e2 : List.range' (foldEnd current + 1)
            (b.lines.length - (foldEnd current + 1)) =
          List.range' (current + (foldEnd current + 1 - current))
            (b.lines.length - (foldEnd current + 1)) := by
        rw [e1]
      rw [e2, List.range'_append_1]
      congr 1
      omega
    · have hfeq : foldEnd current + 1 = b.lines.length := by omega
      have hstop : foldedLinesB b foldEnd (idx + 1) (foldEnd current + 1) fuel = [] := by
        apply foldedLinesB_stop
        simp only [Buffer.lastLine]; omega
      rw [hstop]
      constructor
      · simp only [List.map_nil, chainB]
        rw [hfeq, offset_of_line_all b _ (le_refl _)]
        simp
      · simp only [List.map_nil, List.flatten_nil, List.append_nil]
        congr 1
        omega

/-- C4.  For any buffer and any folding decision that keeps units inside the
buffer, the ordered `origin_interval`s of the folded lines built by
`update_lines` chain exactly from offset `0` to the buffer length (gap-free,
non-overlapping cover of `[0, len)`), and the units' inclusive origin-line
ranges concatenate to exactly `0, 1, ..., last_line` (contiguous,
non-overlapping). -/
theorem folded_intervals_cover (b : Buffer) (foldEnd : Nat → Nat)
    (hne : b.lines ≠ [])
    (hfe : ∀ l, l < b.lines.length → l ≤ foldEnd l ∧ foldEnd l < b.lines.length) :
    chainB 0 ((update_lines_folded b foldEnd).map
        (fun f => f.origin_interval)) b.len = true ∧
    ((update_lines_folded b foldEnd).map
        (fun f => List.range' f.origin_line_start
          (f.origin_line_end + 1 - f.origin_line_start))).flatten =
      List.range b.lines.length := by
  have hlen : 1 ≤ b.lines.length := by
    cases hb : b.lines with
    | nil => exact absurd hb hne
    | cons x xs => simp
  have := foldedLinesB_chain b foldEnd hfe (b.lastLine + 1) 0 0 (by omega)
    (by simp only [Buffer.lastLine]; omega)
  obtain ⟨h1, h2⟩ := this
  constructor
  · simpa [update_lines_folded, offset_of_line_zero] using h1
  · rw [List.range_eq_range']
    simpa [update_lines_folded] using h2

/-- C4, witness instantiation: three 2-byte lines with lines 1 and 2 merged
by a collapsed fold. -/
theorem folded_intervals_cover_witness :
    chainB 0 ((update_lines_folded ⟨[2, 2, 2]⟩
        (fun l => if l = 1 then 2 else l)).map
        (fun f => f.origin_interval)) (Buffer.len ⟨[2, 2, 2]⟩) = true ∧
    ((update_lines_folded ⟨[2, 2, 2]⟩ (fun l => if l = 1 then 2 else l)).map
        (fun f => List.range' f.origin_line_start
          (f.origin_line_end + 1 - f.origin_line_start))).flatten =
      List.range (Buffer.lines ⟨[2, 2, 2]⟩).length :=
  folded_intervals_cover ⟨[2, 2, 2]⟩ (fun l => if l = 1 then 2 else l)
    (by decide)
    (by
      intro l hl
      have h3 : l < 3 := by simpa using hl
      interval_cases l <;> simp)

/-- The interval sequence the inner visual-line loop produces from a given
starting `visual_offset_start`: segment of `l` glyphs gives `[a, a + l)` and
the next segment starts at `a + l - 1` (all segments assumed non-empty
here). -/
def viExpected : Nat → List Nat → List Interval
  | _, [] => []
  | a, l :: rest => ⟨a, a + l⟩ :: viExpected (a + l - 1) rest

theorem visualRowGo_intervals (f o : Nat) (ls : List Nat) :
    ∀ s a v, (∀ l ∈ ls, 1 ≤ l) →
      (visualRowGo f o ls s a v).map (fun x : VisualLineM => x.visual_interval) =
        viExpected a ls := by
  induction ls with
  | nil => intro s a v _; rfl
  | cons l rest ih =>
    intro s a v hpos
    have hl : 1 ≤ l := hpos l (by simp)
    have hlne : ¬ (l = 0) := by omega
    rw [visualRowGo, viExpected]
    simp only [hlne, if_false, List.map_cons]
    rw [ih (s + 1) (a + l - 1) (v + 1) (fun x hx => hpos x (by simp [hx]))]

theorem viExpected_length : ∀ (ls : List Nat) (a : Nat),
    (viExpected a ls).length = ls.length := by
  intro ls
  induction ls with
  | nil => intro a; rfl
  | cons l rest ih => intro a; simp [viExpected, ih]

theorem viExpected_last : ∀ (ls : List Nat) (a : Nat),
    (∀ l ∈ ls, 1 ≤ l) → ls ≠ [] →
      ((viExpected a ls).getLast?.getD default).stop + (ls.length - 1) = a + ls.sum := by
  intro ls
  induction ls with
  | nil => intro a _ h; exact absurd rfl h
  | cons l rest ih =>
    intro a hpos _
    cases rest with
    | nil => simp [viExpected]
    | cons r rs =>
      have hl : 1 ≤ l := hpos l (by simp)
      have hih := ih (a + l - 1) (fun x hx => hpos x (by simp [hx])) (by simp)
      rw [show viExpected a (l :: r :: rs) =
        ⟨a, a + l⟩ :: viExpected (a + l - 1) (r :: rs) from rfl]
      rw [show viExpected (a + l - 1) (r :: rs) =
        ⟨a + l - 1, a + l - 1 + r⟩ :: viExpected (a + l - 1 + r - 1) rs from rfl] at *
      rw [List.getLast?_cons_cons]
      simp only [List.length_cons, List.sum_cons] at *
      omega

theorem viExpected_adjacent : ∀ (ls : List Nat) (a i : Nat),
    (∀ l ∈ ls, 1 ≤ l) → i + 1 < ls.length →
      ((viExpected a ls).getD (i + 1) default).start + 1 =
        ((viExpected a ls).getD i default).stop := by
  intro ls
  induction ls with
  | nil => intro a i _ hi; simp at hi
  | cons l rest ih =>
    intro a i hpos hi
    have hl : 1 ≤ l := hpos l (by simp)
    match i with
    | 0 =>
      cases rest with
      | nil => simp at hi
      | cons r rs =>
        rw [show viExpected a (l :: r :: rs) =
          ⟨a, a + l⟩ :: ⟨a + l - 1, a + l - 1 + r⟩ :: viExpected (a + l - 1 + r - 1) rs
          from rfl]
        simp only [List.getD_cons_succ, List.getD_cons_zero]
        omega
    | Nat.succ j =>
      have := ih (a + l - 1) j (fun x hx => hpos x (by simp [hx]))
        (by simp only [List.length_cons] at hi; omega)
      rw [show viExpected a (l :: rest) = ⟨a, a + l⟩ :: viExpected (a + l - 1) rest
        from rfl]
      simpa using this

/-- C2, counterexample.  A folded line wrapped into two segments of two
glyphs each: `update_lines` produces `visual_interval`s `[0,2)` and `[1,3)`
(mod.rs:387 restarts the next segment at `visual_offset_end`, not
`visual_offset_end + 1`), so the ordered intervals overlap at position 1,
miss position 3, and do not partition `[0, 4)` where `4` is the composed
glyph length. -/
theorem visual_intervals_counterexample :
    visualIntervalsOfLayouts [2, 2] = [⟨0, 2⟩, ⟨1, 3⟩] ∧
    chainB 0 (visualIntervalsOfLayouts [2, 2]) (List.sum [2, 2]) = false := by
  decide

/-- C2, amended.  For a folded line with all wrap segments non-empty: a
single segment yields the exact partition `[0, L)` of its composed length,
but with two or more segments each later `visual_interval` starts one
position before the previous one stops (a one-glyph overlap), the first
starts at 0, and the last stops at `composed_length - (segments - 1)` — the
ordered intervals cover `[0, composed_length)` exactly only in the
single-segment case. -/
theorem visual_intervals_overlap_structure (ls : List Nat)
    (hpos : ∀ l ∈ ls, 1 ≤ l) (hne : ls ≠ []) :
    (visualIntervalsOfLayouts ls).length = ls.length ∧
    ((visualIntervalsOfLayouts ls).getD 0 default).start = 0 ∧
    ((visualIntervalsOfLayouts ls).getLast?.getD default).stop + (ls.length - 1) =
      ls.sum ∧
    (∀ i, i + 1 < ls.length →
      ((visualIntervalsOfLayouts ls).getD (i + 1) default).start + 1 =
        ((visualIntervalsOfLayouts ls).getD i default).stop) ∧
    (∀ l, ls = [l] → chainB 0 (visualIntervalsOfLayouts ls) ls.sum = true) := by
  have hmain : visualIntervalsOfLayouts ls = viExpected 0 ls :=
    visualRowGo_intervals 0 0 ls 0 0 0 hpos
  rw [hmain]
  refine ⟨viExpected_length ls 0, ?_, ?_, fun i hi => viExpected_adjacent ls 0 i hpos hi, ?_⟩
  · cases ls with
    | nil => exact absurd rfl hne
    | cons l rest => rfl
  · have := viExpected_last ls 0 hpos hne
    omega
  · intro l hls
    subst hls
    have hl : 1 ≤ l := hpos l (by simp)
    have hlne : ¬ (l = 0) := by omega
    simp [viExpected, chainB]

/-- C2, witness instantiation: a single 3-glyph segment partitions `[0, 3)`
exactly; two 2-glyph segments exhibit the one-position overlap. -/
theorem visual_intervals_overlap_structure_witness :
    chainB 0 (visualIntervalsOfLayouts [3]) (List.sum [3]) = true ∧
    ((visualIntervalsOfLayouts [2, 2]).getD 1 default).start + 1 =
      ((visualIntervalsOfLayouts [2, 2]).getD 0 default).stop :=
  ⟨(visual_intervals_overlap_structure [3] (by decide) (by decide)).2.2.2.2 3 rfl,
    (visual_intervals_overlap_structure [2, 2] (by decide) (by decide)).2.2.2.1 0
      (by decide)⟩

/-- Outcome of a Rust function that can hit a `panic!()`: either a value, or
the unchecked-crash path. -/
inductive RustOutcome (α : Type) where
  | ok (a : α)
  | panicked
  deriving DecidableEq, Repr

/-- `DocLines::folded_line_of_origin_line` (mod.rs:460-472): linear scan for
the folded line whose `origin_line_start..=origin_line_end` contains the
line; falls through to `panic!()` when no unit matches. -/
def folded_line_of_origin_line (origin_folded_lines : List OriginFoldedLineM)
    (origin_line : Nat) : RustOutcome OriginFoldedLineM :=
  match origin_folded_lines.find? (fun folded_line =>
      decide (folded_line.origin_line_start ≤ origin_line) &&
        decide (origin_line ≤ folded_line.origin_line_end)) with
  | some folded_line => .ok folded_line
  | none => .panicked

/-- `DocLines::start_visual_line_of_folded_line` (mod.rs:448-458): first
visual line of a folded line; `panic!()` when none references it. -/
def start_visual_line_of_folded_line (visual_lines : List VisualLineM)
    (origin_folded_line : Nat) : RustOutcome VisualLineM :=
  match visual_lines.find? (fun visual_line =>
      visual_line.origin_folded_line == origin_folded_line) with
  | some visual_line => .ok visual_line
  | none => .panicked

/-- `DocLines::visual_line_of_folded_line_and_sub_index` (mod.rs:474-487):
visual line of a folded line and wrap-segment index; `panic!()` when the pair
is absent. -/
def visual_line_of_folded_line_and_sub_index (visual_lines : List VisualLineM)
    (origin_folded_line sub_index : Nat) : RustOutcome VisualLineM :=
  match visual_lines.find? (fun visual_line =>
      visual_line.origin_folded_line == origin_folded_line &&
        visual_line.origin_folded_line_sub_index == sub_index) with
  | some visual_line => .ok visual_line
  | none => .panicked

/-- C7, counterexample.  On a state whose vectors do not contain the looked-up
line (here: empty vectors, e.g. before any rebuild), all three lookups reach
the `panic!()` branch — an unchecked crash, not an error result returned to
the caller. -/
theorem lookup_panics_counterexample :
    folded_line_of_origin_line [] 0 = RustOutcome.panicked ∧
    start_visual_line_of_folded_line [] 0 = RustOutcome.panicked ∧
    visual_line_of_folded_line_and_sub_index [] 0 0 = RustOutcome.panicked :=
  ⟨rfl, rfl, rfl⟩

/-- C7, amended.  When an internal lookup finds no match (a broken partition
invariant), `folded_line_of_origin_line`, `start_visual_line_of_folded_line`
and `visual_line_of_folded_line_and_sub_index` do not surface an error result:
each reaches its `panic!()` (mod.rs:457, 471, 486).  The spec's
error-result requirement is stated for reimplementations (spec §9), not met
by this code. -/
theorem lookup_no_match_panics (origin_folded_lines : List OriginFoldedLineM)
    (visual_lines : List VisualLineM) (origin_line origin_folded_line sub_index : Nat)
    (h1 : ∀ folded_line ∈ origin_folded_lines,
      ¬ (folded_line.origin_line_start ≤ origin_line ∧
          origin_line ≤ folded_line.origin_line_end))
    (h2 : ∀ visual_line ∈ visual_lines,
      visual_line.origin_folded_line ≠ origin_folded_line)
    (h3 : ∀ visual_line ∈ visual_lines,
      ¬ (visual_line.origin_folded_line = origin_folded_line ∧
          visual_line.origin_folded_line_sub_index = sub_index)) :
    folded_line_of_origin_line origin_folded_lines origin_line =
        RustOutcome.panicked ∧
    start_visual_line_of_folded_line visual_lines origin_folded_line =
        RustOutcome.panicked ∧
    visual_line_of_folded_line_and_sub_index visual_lines origin_folded_line
        sub_index = RustOutcome.panicked := by
  refine ⟨?_, ?_, ?_⟩
  · rw [folded_line_of_origin_line]
    have : origin_folded_lines.find? (fun folded_line =>
        decide (folded_line.origin_line_start ≤ origin_line) &&
          decide (origin_line ≤ folded_line.origin_line_end)) = none := by
      rw [List.find?_eq_none]
      intro x hx
      have := h1 x hx
      simp only [Bool.and_eq_true, decide_eq_true_eq]
      omega
    rw [this]
  · rw [start_visual_line_of_folded_line]
    have : visual_lines.find? (fun visual_line =>
        visual_line.origin_folded_line == origin_folded_line) = none := by
      rw [List.find?_eq_none]
      intro x hx
      simpa using h2 x hx
    rw [this]
  · rw [visual_line_of_folded_line_and_sub_index]
    have : visual_lines.find? (fun visual_line =>
        visual_line.origin_folded_line == origin_folded_line &&
          visual_line.origin_folded_line_sub_index == sub_index) = none := by
      rw [List.find?_eq_none]
      intro x hx
      have := h3 x hx
      simp only [Bool.and_eq_true, beq_iff_eq]
      tauto
    rw [this]

/-- C7, witness instantiation: the amended theorem applied to the empty
state. -/
theorem lookup_no_match_panics_witness :
    folded_line_of_origin_line [] 5 = RustOutcome.panicked ∧
    start_visual_line_of_folded_line [] 5 = RustOutcome.panicked ∧
    visual_line_of_folded_line_and_sub_index [] 5 1 = RustOutcome.panicked :=
  lookup_no_match_panics [] [] 5 5 1 (by simp) (by simp) (by simp)

/-- Model of `Spans<String>` semantic styles and of `Syntax`, reduced to the
data the revision-gated setters touch (their inner structure is irrelevant to
the gating). -/
structure SemanticStyles where
  payload : List (Interval × String)
  deriving DecidableEq, Repr

/-- Model of `crate::syntax::Syntax` (not under `src/`), reduced to an opaque
style payload: `set_syntax_with_rev` only stores it. -/
structure SyntaxM where
  styles : List (Interval × String)
  deriving DecidableEq, Repr

/-- The slice of `DocLines` state that `update_semantic_styles` and
`set_syntax_with_rev` read and write: the buffer revision (`buffer.rev()`),
the stored semantic styles, the stored syntax, and `style_from_lsp`. -/
structure RevState where
  rev : Nat
  semantic_styles : Option (Option String × SemanticStyles)
  stx : SyntaxM
  style_from_lsp : Bool
  line_styles : List (Nat × List (Nat × Nat × String))
  deriving DecidableEq, Repr

/-- `DocLines::update_semantic_styles` (mod.rs:1699-1706): when the styles
were computed against a revision other than the current buffer revision they
are discarded and the call reports `false`; otherwise they are stored and the
line model recomputed. -/
def update_semantic_styles (s : RevState)
    (semantic_styles : Option String × SemanticStyles) (rev : Nat) :
    Bool × RevState :=
  if s.rev ≠ rev then (false, s)
  else (true, { s with semantic_styles := some semantic_styles })

/-- `DocLines::set_syntax` (mod.rs:1830-1856): stores the syntax; when styles
come from the LSP it reports `false` without rebuilding the line styles,
otherwise it rebuilds them (`rebuild` stands for the per-line regrouping of
`syntax.styles`, which walks buffer offsets) and reports `true`. -/
def set_syntax (s : RevState) (stx : SyntaxM)
    (rebuild : SyntaxM → List (Nat × List (Nat × Nat × String))) :
    Bool × RevState :=
  let s1 := { s with stx := stx }
  if s1.style_from_lsp then (false, s1)
  else (true, { s1 with line_styles := rebuild stx })

/-- `DocLines::set_syntax_with_rev` (mod.rs:1824-1829): revision gate in
front of `set_syntax`. -/
def set_syntax_with_rev (s : RevState) (stx : SyntaxM)
    (rebuild : SyntaxM → List (Nat × List (Nat × Nat × String))) (rev : Nat) :
    Bool × RevState :=
  if s.rev ≠ rev then (false, s)
  else set_syntax s stx rebuild

/-- C8.  For every styles or syntax payload tagged with a revision different
from the current buffer revision, `update_semantic_styles` and
`set_syntax_with_rev` report `false` ("not applied", not an error) and leave
the stored state untouched. -/
theorem stale_revision_not_applied (s : RevState)
    (semantic_styles : Option String × SemanticStyles) (stx : SyntaxM)
    (rebuild : SyntaxM → List (Nat × List (Nat × Nat × String))) (rev : Nat)
    (h : rev ≠ s.rev) :
    update_semantic_styles s semantic_styles rev = (false, s) ∧
    set_syntax_with_rev s stx rebuild rev = (false, s) := by
  constructor
  · rw [update_semantic_styles, if_pos (fun hc => h hc.symm)]
  · rw [set_syntax_with_rev, if_pos (fun hc => h hc.symm)]

/-- C8, witness instantiation: revision 3 against current revision 7. -/
theorem stale_revision_not_applied_witness :
    update_semantic_styles ⟨7, none, ⟨[]⟩, false, []⟩ (none, ⟨[]⟩) 3 =
      (false, ⟨7, none, ⟨[]⟩, false, []⟩) ∧
    set_syntax_with_rev ⟨7, none, ⟨[]⟩, false, []⟩ ⟨[]⟩ (fun _ => []) 3 =
      (false, ⟨7, none, ⟨[]⟩, false, []⟩) :=
  stale_revision_not_applied ⟨7, none, ⟨[]⟩, false, []⟩ (none, ⟨[]⟩) ⟨[]⟩
    (fun _ => []) 3 (by decide)

/-- `lsp_types::Position`: zero-based line and UTF-16 character. -/
structure Pos where
  line : Nat
  character : Nat
  deriving DecidableEq, Repr, Inhabited

/-- Strict positional order on `Pos` (line-major, then character). -/
def Pos.ltB (a b : Pos) : Bool :=
  a.line < b.line || (a.line == b.line && a.character < b.character)

/-- `CursorAffinity` (`crate::lines::cursor`, not under `src/`): whether a
boundary position belongs to the segment before or after it. -/
inductive Affinity where
  | Backward
  | Forward
  deriving DecidableEq, Repr

/-- `PhantomTextKind`, reduced to the variants' names (the fold variant's
positions are not needed by the claims below). -/
inductive PhantomKind where
  | InlayHint
  | Diagnostic
  | Completion
  | LineFoldedRang
  | Preedit
  deriving DecidableEq, Repr, Inhabited

/-- `PhantomText` (`crate::lines::phantom_text`, not under `src/`), modelled
from the spec's data model: kind, anchor line and columns, and the synthetic
text.  The purely visual styling fields (`fg`, `bg`, `font_size`,
`under_line`) are omitted; no claim mentions them. -/
structure PhantomText where
  kind : PhantomKind
  line : Nat
  col : Nat
  merge_col : Nat
  final_col : Nat
  text : String
  affinity : Option Affinity
  deriving DecidableEq, Repr, Inhabited

def PhantomText.len (p : PhantomText) : Nat := p.text.length

/-- Modelled from the spec: `FoldedRanges::contain_position` of the `fold`
module (not under `src/`) — whether the position lies strictly inside one of
the currently collapsed ranges collected for the line (spec §4.3
`contains(position)`, used by the overlay composer to suppress hints and
diagnostics). -/
def containPosition (folded_ranges : List (Pos × Pos)) (p : Pos) : Bool :=
  folded_ranges.any (fun r => Pos.ltB r.1 p && Pos.ltB p r.2)

/-- The editor-configuration switches `phantom_text` reads. -/
structure EditorConfigM where
  enable_inlay_hints : Bool
  enable_error_lens : Bool
  enable_completion_lens : Bool
  enable_inline_completion : Bool
  only_render_error_styling : Bool
  error_lens_multiline : Bool
  deriving DecidableEq, Repr

/-- One `InlayHint` together with the start of the span interval it is stored
under (`Spans<InlayHint>`); `label` is the hint's label text joined to a
single string, as `phantom_text` does before the colon adjustment. -/
structure InlayHintM where
  start : Nat
  position : Pos
  label : String
  deriving DecidableEq, Repr

/-- One diagnostic together with its span interval `[ivStart, ivEnd]` in the
`diagnostics_span` store and its original LSP range. -/
structure DiagnosticM where
  ivStart : Nat
  ivEnd : Nat
  severity : Option Nat
  message : String
  rangeStart : Pos
  rangeEnd : Pos
  deriving DecidableEq, Repr

/-- `DiagnosticSeverity::HINT` of `lsp_types` (numeric value 4; `ERROR` is 1,
so "more severe" means numerically smaller). -/
def severityHINT : Nat := 4

/-- Rust's derived `Ord` on `Option<DiagnosticSeverity>` restricted to `<`:
`None` compares less than every `Some`. -/
def rustOptionLt : Option Nat → Option Nat → Bool
  | Option.none, Option.some _ => true
  | Option.some a, Option.some b => a < b
  | _, Option.none => false

/-- Colon adjustment `phantom_text` applies to a hint label
(mod.rs:855-868). -/
def hintText (s : String) : String :=
  if s.startsWith ":" then s ++ " "
  else if s.endsWith ":" then " " ++ s ++ " "
  else " " ++ s

/-- Filter applied to inlay hints in `phantom_text` (mod.rs:803-807): the
span must start inside the line's byte range and the hint's anchor position
must not sit inside a collapsed fold range. -/
def keepHint (folded_ranges : List (Pos × Pos)) (start_offset end_offset : Nat)
    (h : InlayHintM) : Bool :=
  decide (start_offset ≤ h.start) && decide (h.start < end_offset) &&
    !(containPosition folded_ranges h.position)

/-- Hint phantom construction (mod.rs:808-883): anchored at the hint's column
within its line; `affinityOf` stands for the affinity classification of the
neighbouring characters (mod.rs:809-848), which calls `get_char_property`
of the `word` module (not under `src/`). -/
def mkHintPhantom (b : Buffer) (line : Nat) (affinityOf : Nat → Option Affinity)
    (h : InlayHintM) : PhantomText :=
  let col := h.start - b.offset_of_line (b.line_of_offset h.start)
  { kind := PhantomKind.InlayHint, line := line, col := col, merge_col := col,
    final_col := col, text := hintText h.label, affinity := affinityOf h.start }

/-- The hint phantoms `phantom_text` collects for a line (mod.rs:796-887). -/
def hintPhantoms (config : EditorConfigM) (b : Buffer)
    (folded_ranges : List (Pos × Pos)) (line start_offset end_offset : Nat)
    (affinityOf : Nat → Option Affinity) (inlay_hints : List InlayHintM) :
    List PhantomText :=
  if config.enable_inlay_hints then
    (inlay_hints.filter (keepHint folded_ranges start_offset end_offset)).map
      (mkHintPhantom b line affinityOf)
  else []

/-- Filter applied to diagnostics in `phantom_text` (mod.rs:900-907): the
diagnostic must end on this line, its severity must be strictly more severe
than `HINT` under Rust's `Option` ordering, and neither end of its range may
sit inside a collapsed fold range. -/
def keepDiag (b : Buffer) (line : Nat) (folded_ranges : List (Pos × Pos))
    (d : DiagnosticM) : Bool :=
  (b.line_of_offset d.ivEnd == line) &&
    rustOptionLt d.severity (Option.some severityHINT) &&
    !(containPosition folded_ranges d.rangeStart) &&
    !(containPosition folded_ranges d.rangeEnd)

/-- Error-lens message text (mod.rs:915-921). -/
def diagText (config : EditorConfigM) (message : String) : String :=
  if config.only_render_error_styling then ""
  else if config.error_lens_multiline then "    " ++ message
  else "    " ++ String.intercalate " " (message.splitOn "\n")

/-- Diagnostic phantom construction (mod.rs:922-936): anchored at the end of
the line (`col = end_offset - start_offset`). -/
def mkDiagPhantom (config : EditorConfigM) (start_offset end_offset line : Nat)
    (d : DiagnosticM) : PhantomText :=
  { kind := PhantomKind.Diagnostic, line := line,
    col := end_offset - start_offset, merge_col := end_offset - start_offset,
    final_col := end_offset - start_offset, text := diagText config d.message,
    affinity := Option.some Affinity.Backward }

/-- The diagnostic phantoms `phantom_text` collects for a line
(mod.rs:893-943). -/
def diagPhantoms (config : EditorConfigM) (b : Buffer) (line : Nat)
    (folded_ranges : List (Pos × Pos)) (start_offset end_offset : Nat)
    (diagnostics : List DiagnosticM) : List PhantomText :=
  if config.enable_error_lens then
    (diagnostics.filter (keepDiag b line folded_ranges)).map
      (mkDiagPhantom config start_offset end_offset line)
  else []

/-- Completion-lens phantom (mod.rs:947-977), with its own fold filter. -/
def completionPhantom (config : EditorConfigM)
    (folded_ranges : List (Pos × Pos)) (line : Nat)
    (completion_lens : Option String) (completion_pos : Nat × Nat) :
    List PhantomText :=
  match config.enable_completion_lens, completion_lens with
  | true, Option.some completion =>
    if line = completion_pos.1 &&
        !(containPosition folded_ranges
          ⟨completion_pos.1, completion_pos.2⟩) then
      [{ kind := PhantomKind.Completion, line := line, col := completion_pos.2,
         merge_col := completion_pos.2, final_col := completion_pos.2,
         text := completion, affinity := Option.some Affinity.Backward }]
    else []
  | _, _ => []

/-- Inline-completion phantom (mod.rs:984-1014), with its own fold filter. -/
def inlineCompletionPhantom (config : EditorConfigM)
    (folded_ranges : List (Pos × Pos)) (line : Nat)
    (inline_completion : Option (String × Nat × Nat)) : List PhantomText :=
  match config.enable_inline_completion, inline_completion with
  | true, Option.some (completion, cline, ccol) =>
    if line = cline && !(containPosition folded_ranges ⟨cline, ccol⟩) then
      [{ kind := PhantomKind.Completion, line := line, col := ccol,
         merge_col := ccol, final_col := ccol, text := completion,
         affinity := Option.some Affinity.Backward }]
    else []
  | _, _ => []

/-- `DocLines::phantom_text` (mod.rs:774-1034): the ordered overlay list
collected for one origin line — inlay hints, then error-lens diagnostics,
then completion lens, then inline completion, then the IME preedit phantom
and the fold placeholders.  The latter two are built by `util::preedit_phantom`
and `FoldedRanges::into_phantom_text` (modules not under `src/`) and enter
here as parameters. -/
def phantom_text (config : EditorConfigM) (b : Buffer)
    (folded_ranges : List (Pos × Pos)) (line : Nat)
    (affinityOf : Nat → Option Affinity) (inlay_hints : List InlayHintM)
    (diagnostics : List DiagnosticM) (completion_lens : Option String)
    (completion_pos : Nat × Nat)
    (inline_completion : Option (String × Nat × Nat))
    (preedit : Option PhantomText) (fold_phantoms : List PhantomText) :
    List PhantomText :=
  let start_offset := b.offset_of_line line
  let end_offset := b.offset_of_line (line + 1)
  hintPhantoms config b folded_ranges line start_offset end_offset affinityOf
      inlay_hints ++
    diagPhantoms config b line folded_ranges start_offset end_offset
      diagnostics ++
    completionPhantom config folded_ranges line completion_lens
      completion_pos ++
    inlineCompletionPhantom config folded_ranges line inline_completion ++
    preedit.toList ++ fold_phantoms

/-- C5.  Every hint phantom in the collected overlay list stems from a hint
whose anchor position is not inside a collapsed fold range, and every
diagnostic phantom stems from a diagnostic neither of whose range ends is
inside a collapsed fold range: a diagnostic or hint anchored strictly inside
a collapsed range is filtered out at collection time in `phantom_text` and
never appears. -/
theorem phantom_text_fold_suppression (config : EditorConfigM) (b : Buffer)
    (folded_ranges : List (Pos × Pos)) (line start_offset end_offset : Nat)
    (affinityOf : Nat → Option Affinity) (inlay_hints : List InlayHintM)
    (diagnostics : List DiagnosticM) :
    (∀ p ∈ hintPhantoms config b folded_ranges line start_offset end_offset
        affinityOf inlay_hints,
      ∃ h, h ∈ inlay_hints ∧ containPosition folded_ranges h.position = false ∧
        p = mkHintPhantom b line affinityOf h) ∧
    (∀ p ∈ diagPhantoms config b line folded_ranges start_offset end_offset
        diagnostics,
      ∃ d, d ∈ diagnostics ∧
        containPosition folded_ranges d.rangeStart = false ∧
        containPosition folded_ranges d.rangeEnd = false ∧
        p = mkDiagPhantom config start_offset end_offset line d) := by
  constructor
  · intro p hp
    rw [hintPhantoms] at hp
    by_cases hc : config.enable_inlay_hints
    · rw [if_pos hc] at hp
      obtain ⟨h, hmem, hmk⟩ := List.mem_map.mp hp
      obtain ⟨hin, hkeep⟩ := List.mem_filter.mp hmem
      refine ⟨h, hin, ?_, hmk.symm⟩
      rw [keepHint] at hkeep
      simp only [Bool.and_eq_true, Bool.not_eq_true'] at hkeep
      exact hkeep.2
    · rw [if_neg hc] at hp
      simp at hp
  · intro p hp
    rw [diagPhantoms] at hp
    by_cases hc : config.enable_error_lens
    · rw [if_pos hc] at hp
      obtain ⟨d, hmem, hmk⟩ := List.mem_map.mp hp
      obtain ⟨hin, hkeep⟩ := List.mem_filter.mp hmem
      rw [keepDiag] at hkeep
      simp only [Bool.and_eq_true, Bool.not_eq_true'] at hkeep
      exact ⟨d, hin, hkeep.1.2, hkeep.2, hmk.symm⟩
    · rw [if_neg hc] at hp
      simp at hp

/-- C5, witness instantiation: a configuration with hints and error lens
enabled, one kept hint and one kept diagnostic, and a collapsed range
`(0,1)-(0,9)`; the theorem applies to each collected phantom. -/
theorem phantom_text_fold_suppression_witness :
    (∀ p ∈ hintPhantoms ⟨true, true, false, false, false, false⟩ ⟨[10]⟩
        [(⟨0, 1⟩, ⟨0, 9⟩)] 0 0 10 (fun _ => Option.none)
        [⟨3, ⟨1, 0⟩, "x"⟩],
      ∃ h, h ∈ [(⟨3, ⟨1, 0⟩, "x"⟩ : InlayHintM)] ∧
        containPosition [(⟨0, 1⟩, ⟨0, 9⟩)] h.position = false ∧
        p = mkHintPhantom ⟨[10]⟩ 0 (fun _ => Option.none) h) ∧
    (∀ p ∈ diagPhantoms ⟨true, true, false, false, false, false⟩ ⟨[10]⟩ 0
        [(⟨0, 1⟩, ⟨0, 9⟩)] 0 10 [⟨2, 5, Option.some 1, "e", ⟨1, 0⟩, ⟨1, 2⟩⟩],
      ∃ d, d ∈ [(⟨2, 5, Option.some 1, "e", ⟨1, 0⟩, ⟨1, 2⟩⟩ : DiagnosticM)] ∧
        containPosition [(⟨0, 1⟩, ⟨0, 9⟩)] d.rangeStart = false ∧
        containPosition [(⟨0, 1⟩, ⟨0, 9⟩)] d.rangeEnd = false ∧
        p = mkDiagPhantom ⟨true, true, false, false, false, false⟩ 0 10 0 d) :=
  phantom_text_fold_suppression ⟨true, true, false, false, false, false⟩ ⟨[10]⟩
    [(⟨0, 1⟩, ⟨0, 9⟩)] 0 0 10 (fun _ => Option.none) [⟨3, ⟨1, 0⟩, "x"⟩]
    [⟨2, 5, Option.some 1, "e", ⟨1, 0⟩, ⟨1, 2⟩⟩]

/-- C9.  A diagnostic with `severity = None` passes the severity filter
`diag.severity < Some(DiagnosticSeverity::HINT)` (Rust's `Option` ordering
places `None` below every `Some`), so when error lens is enabled, the
diagnostic ends on the line, and its range is clear of collapsed folds, it is
collected as an error-lens phantom of kind `Diagnostic` anchored at the end
of the line (`col = end_offset - start_offset`). -/
theorem severityless_diagnostic_rendered (config : EditorConfigM) (b : Buffer)
    (line : Nat) (folded_ranges : List (Pos × Pos))
    (start_offset end_offset : Nat) (diagnostics : List DiagnosticM)
    (d : DiagnosticM) (hmem : d ∈ diagnostics)
    (hsev : d.severity = Option.none)
    (hline : b.line_of_offset d.ivEnd = line)
    (hs : containPosition folded_ranges d.rangeStart = false)
    (he : containPosition folded_ranges d.rangeEnd = false)
    (hcfg : config.enable_error_lens = true) :
    rustOptionLt d.severity (Option.some severityHINT) = true ∧
    mkDiagPhantom config start_offset end_offset line d ∈
      diagPhantoms config b line folded_ranges start_offset end_offset
        diagnostics ∧
    (mkDiagPhantom config start_offset end_offset line d).col =
      end_offset - start_offset ∧
    (mkDiagPhantom config start_offset end_offset line d).kind =
      PhantomKind.Diagnostic := by
  have hlt : rustOptionLt d.severity (Option.some severityHINT) = true := by
    rw [hsev]; rfl
  refine ⟨hlt, ?_, rfl, rfl⟩
  rw [diagPhantoms, if_pos hcfg]
  apply List.mem_map_of_mem
  rw [List.mem_filter]
  refine ⟨hmem, ?_⟩
  rw [keepDiag, hline, hlt, hs, he]
  simp

/-- C9, witness instantiation: a severity-less diagnostic ending at offset 5
of the single 10-byte line, no folds. -/
theorem severityless_diagnostic_rendered_witness :
    rustOptionLt (Option.none : Option Nat) (Option.some severityHINT) = true ∧
    mkDiagPhantom ⟨true, true, false, false, false, false⟩ 0 10 0
        ⟨2, 5, Option.none, "boom", ⟨0, 2⟩, ⟨0, 5⟩⟩ ∈
      diagPhantoms ⟨true, true, false, false, false, false⟩ ⟨[10]⟩ 0 [] 0 10
        [⟨2, 5, Option.none, "boom", ⟨0, 2⟩, ⟨0, 5⟩⟩] ∧
    (mkDiagPhantom ⟨true, true, false, false, false, false⟩ 0 10 0
        ⟨2, 5, Option.none, "boom", ⟨0, 2⟩, ⟨0, 5⟩⟩).col = 10 - 0 ∧
    (mkDiagPhantom ⟨true, true, false, false, false, false⟩ 0 10 0
        ⟨2, 5, Option.none, "boom", ⟨0, 2⟩, ⟨0, 5⟩⟩).kind =
      PhantomKind.Diagnostic :=
  severityless_diagnostic_rendered ⟨true, true, false, false, false, false⟩
    ⟨[10]⟩ 0 [] 0 10 [⟨2, 5, Option.none, "boom", ⟨0, 2⟩, ⟨0, 5⟩⟩]
    ⟨2, 5, Option.none, "boom", ⟨0, 2⟩, ⟨0, 5⟩⟩ (by simp) rfl (by decide)
    rfl rfl rfl

/-- Modelled from the spec: the accumulated width of the phantom fragments a
given origin column passes when mapped into the composed text —
`final_col` accounts for every earlier fragment whose anchor is at or before
the column (spec §4.4); the `before_cursor` affinity decides whether a
fragment anchored exactly at the column counts. -/
def shiftOfCol (phantoms : List PhantomText) (col : Nat) (before_cursor : Bool) : Nat :=
  (phantoms.map (fun p =>
    if p.merge_col < col || (p.merge_col == col && !before_cursor) then p.len
    else 0)).sum

/-- Modelled from the spec: `PhantomTextMultiLine::final_col_of_col` of the
`phantom_text` module (not under `src/`), for a single-line overlay table —
the composed column of an origin column. -/
def final_col_of_col (phantoms : List PhantomText) (col : Nat)
    (before_cursor : Bool) : Nat :=
  col + shiftOfCol phantoms col before_cursor

/-- Modelled from the spec: scan of the ordered fragments for the inverse
mapping — a composed column before the next fragment maps back by removing
the accumulated phantom width, a composed column inside a fragment maps to
the fragment's anchor, and the result is clamped to the line's origin text
length. -/
def cursorColAux : List PhantomText → Nat → Nat → Nat → Nat
  | [], shift, fcol, origin_len => min (fcol - shift) origin_len
  | p :: ps, shift, fcol, origin_len =>
    if fcol < p.final_col then min (fcol - shift) origin_len
    else if fcol < p.final_col + p.len then min p.col origin_len
    else cursorColAux ps (shift + p.len) fcol origin_len

/-- Modelled from the spec: `cursor_position_of_final_col` of the
`phantom_text` module (not under `src/`) — the origin column a composed
column maps back to (spec §4.4 inverse mapping, used by
`buffer_offset_of_click` and the visual-line segmenter). -/
def cursor_position_of_final_col (phantoms : List PhantomText)
    (origin_len fcol : Nat) : Nat :=
  cursorColAux phantoms 0 fcol origin_len

/-- Well-formedness of a single-line overlay table relative to an accumulated
shift: fragments are anchored in order and each fragment's `final_col` is its
anchor plus the width of everything placed before it — exactly the
construction invariant of `PhantomTextLine::new` (spec §4.4). -/
def PhantomWF : List PhantomText → Nat → Prop
  | [], _ => True
  | p :: ps, shift =>
    p.final_col = p.col + shift ∧ p.merge_col = p.col ∧
      (∀ q ∈ ps, p.col ≤ q.merge_col) ∧ PhantomWF ps (shift + p.len)

theorem shiftOfCol_eq_zero (phantoms : List PhantomText) (col : Nat)
    (before_cursor : Bool)
    (h : ∀ p ∈ phantoms,
      (p.merge_col < col || (p.merge_col == col && !before_cursor)) = false) :
    shiftOfCol phantoms col before_cursor = 0 := by
  induction phantoms with
  | nil => rfl
  | cons p ps ih =>
    rw [shiftOfCol, List.map_cons, List.sum_cons, h p (by simp)]
    simpa [shiftOfCol] using ih (fun q hq => h q (by simp [hq]))

/-- Composing the forward and inverse column mappings is the identity on
origin columns, relative to any accumulated shift. -/
theorem cursorColAux_inverse (phantoms : List PhantomText)
    (shift col origin_len : Nat) (before_cursor : Bool)
    (hwf : PhantomWF phantoms shift) (hcol : col ≤ origin_len) :
    cursorColAux phantoms shift
      (col + shift + shiftOfCol phantoms col before_cursor) origin_len = col := by
  induction phantoms generalizing shift with
  | nil =>
    rw [shiftOfCol, List.map_nil, List.sum_nil, cursorColAux]
    omega
  | cons p ps ih =>
    obtain ⟨hfc, hmc, hord, hwf2⟩ := hwf
    by_cases hcond : (p.merge_col < col ||
        (p.merge_col == col && !before_cursor)) = true
    · have hple : p.col ≤ col := by
        rw [hmc] at hcond
        simp only [Bool.or_eq_true, Bool.and_eq_true, beq_iff_eq,
          decide_eq_true_eq] at hcond
        rcases hcond with h1 | ⟨h1, _⟩ <;> omega
      have hsplit : shiftOfCol (p :: ps) col before_cursor =
          p.len + shiftOfCol ps col before_cursor := by
        rw [shiftOfCol, List.map_cons, List.sum_cons, if_pos hcond]
        rfl
      rw [hsplit, cursorColAux]
      have hn1 : ¬ (col + shift + (p.len + shiftOfCol ps col before_cursor) <
          p.final_col) := by
        rw [hfc]; omega
      have hn2 : ¬ (col + shift + (p.len + shiftOfCol ps col before_cursor) <
          p.final_col + p.len) := by
        rw [hfc]; omega
      rw [if_neg hn1, if_neg hn2]
      have := ih (shift + p.len) hwf2
      have harr : col + shift + (p.len + shiftOfCol ps col before_cursor) =
          col + (shift + p.len) + shiftOfCol ps col before_cursor := by omega
      rw [harr]
      exact this
    · have hcondf : (p.merge_col < col ||
          (p.merge_col == col && !before_cursor)) = false := by
        simpa using hcond
      have hrest0 : shiftOfCol ps col before_cursor = 0 := by
        apply shiftOfCol_eq_zero
        intro q hq
        have hqord := hord q hq
        rw [hmc] at hcondf
        simp only [Bool.or_eq_false_iff, Bool.and_eq_false_iff] at hcondf ⊢
        constructor
        · simp only [decide_eq_false_iff_not, Nat.not_lt] at hcondf ⊢
          omega
        · rcases hcondf.2 with h1 | h1
          · simp only [beq_eq_false_iff_ne, ne_eq] at h1 ⊢
            left
            simp only [decide_eq_false_iff_not, Nat.not_lt] at hcondf
            omega
          · right; exact h1
      have hsplit : shiftOfCol (p :: ps) col before_cursor = 0 := by
        rw [shiftOfCol, List.map_cons, List.sum_cons, if_neg hcond]
        simpa [shiftOfCol] using hrest0
      rw [hsplit, cursorColAux]
      by_cases hlt : col + shift + 0 < p.final_col
      · rw [if_pos hlt]
        omega
      · rw [if_neg hlt]
        have hpc : p.col = col := by
          rw [hmc] at hcondf
          simp only [Bool.or_eq_false_iff, Bool.and_eq_false_iff,
            decide_eq_false_iff_not, Nat.not_lt] at hcondf
          rw [hfc] at hlt
          omega
        by_cases hin : col + shift + 0 < p.final_col + p.len
        · rw [if_pos hin, hpc]
          omega
        · rw [if_neg hin]
          have hlen0 : p.len = 0 := by
            rw [hfc, hpc] at hin
            omega
          have hres := ih (shift + p.len) hwf2
          rw [hrest0, hlen0] at hres
          rw [hlen0]
          simpa using hres

/-- Forward position mapping of `visual_line_of_offset` /
`cursor_position_of_buffer_offset` (mod.rs:724-746) at the folded-column
level: resolve the buffer offset to its origin line and column, then to the
composed column through the overlay table (`psOf line`). -/
def buffer_offset_to_final (b : Buffer) (psOf : Nat → List PhantomText)
    (offset : Nat) (before_cursor : Bool) : Nat × Nat :=
  let line := b.line_of_offset offset
  let col := offset - b.offset_of_line line
  (line, final_col_of_col (psOf line) col before_cursor)

/-- Inverse position mapping of `buffer_offset_of_click` (mod.rs:540-560):
composed column back through `cursor_position_of_final_col`, then
`offset_of_line_col`. -/
def buffer_offset_of_final (b : Buffer) (psOf : Nat → List PhantomText)
    (line fcol : Nat) : Nat :=
  b.offset_of_line line +
    cursor_position_of_final_col (psOf line) (b.lineLen line) fcol

/-- C6.  For every valid buffer offset and either cursor affinity, mapping the
offset to its visual position (origin line plus composed/folded column, as
`visual_line_of_offset` does) and mapping that position back through the
overlay table's inverse `cursor_position_of_final_col` (as
`buffer_offset_of_click` does) returns exactly the original offset, provided
the line's overlay table satisfies its construction invariant. -/
theorem buffer_offset_roundtrip (b : Buffer) (psOf : Nat → List PhantomText)
    (offset : Nat) (before_cursor : Bool) (hoff : offset < b.len)
    (hwf : PhantomWF (psOf (b.line_of_offset offset)) 0) :
    buffer_offset_of_final b psOf
        (buffer_offset_to_final b psOf offset before_cursor).1
        (buffer_offset_to_final b psOf offset before_cursor).2 = offset := by
  obtain ⟨hle, hlt, _⟩ := line_of_offset_spec b offset hoff
  rw [buffer_offset_to_final, buffer_offset_of_final]
  simp only
  rw [cursor_position_of_final_col, final_col_of_col]
  have := cursorColAux_inverse (psOf (b.line_of_offset offset)) 0
    (offset - b.offset_of_line (b.line_of_offset offset))
    (b.lineLen (b.line_of_offset offset)) before_cursor hwf (by omega)
  simp only [Nat.add_zero] at this
  rw [this]
  omega

/-- C6, witness instantiation: a two-line buffer (line lengths 4 and 3), one
2-character inlay-hint fragment anchored at column 2 of line 0, round trip of
offset 3 under both affinities. -/
theorem buffer_offset_roundtrip_witness :
    3 < Buffer.len ⟨[4, 3]⟩ ∧
    buffer_offset_of_final ⟨[4, 3]⟩
        (fun l => if l = 0 then
          [⟨PhantomKind.InlayHint, 0, 2, 2, 2, "ab", Option.none⟩] else [])
        (buffer_offset_to_final ⟨[4, 3]⟩
          (fun l => if l = 0 then
            [⟨PhantomKind.InlayHint, 0, 2, 2, 2, "ab", Option.none⟩] else [])
          3 true).1
        (buffer_offset_to_final ⟨[4, 3]⟩
          (fun l => if l = 0 then
            [⟨PhantomKind.InlayHint, 0, 2, 2, 2, "ab", Option.none⟩] else [])
          3 true).2 = 3 :=
  ⟨by decide,
    buffer_offset_roundtrip ⟨[4, 3]⟩
      (fun l => if l = 0 then
        [⟨PhantomKind.InlayHint, 0, 2, 2, 2, "ab", Option.none⟩] else [])
      3 true (by decide)
      (by
        refine ⟨?_, rfl, by simp, trivial⟩
        rfl)⟩

/-- The data `previous_visual_line` / `next_visual_line` read from a folded
line: the wrap segments' glyph counts (`text_layout.text.line_layout()`) and
the overlay table for `cursor_position_of_final_col`. -/
structure FoldedLayout where
  layouts : List Nat
  phantoms : List PhantomText
  origin_len : Nat
  deriving DecidableEq, Repr, Inhabited

/-- The snapshot slice the two navigation functions read. -/
structure NavState where
  visual_lines : List VisualLineM
  origin_folded_lines : List FoldedLayout
  deriving DecidableEq, Repr

/-- Loop of `previous_visual_line` / `next_visual_line`
(mod.rs:659-673, 696-710): accumulate the glyph counts of the wrap segments
before the target sub-index into `line_offset`; at the target segment set
`last_char` (`len - 1` in the previous direction, `len.max(1) - 1` in the
next direction — the two directions clamp differently) and stop.  When the
loop runs out of segments, `last_char` keeps its initialisation `0`. -/
def scanNav (is_prev : Bool) (sub_index : Nat) :
    List Nat → Nat → Nat → Nat × Nat
  | [], _, line_offset => (line_offset, 0)
  | l :: rest, idx, line_offset =>
    if idx < sub_index then scanNav is_prev sub_index rest (idx + 1) (line_offset + l)
    else (line_offset, if is_prev then l - 1 else Nat.max l 1 - 1)

/-- `DocLines::previous_visual_line` (mod.rs:651-684): the visual line at
index `max(index, 1) - 1`, the origin column its `line_offset` maps back to,
and whether that column is the segment's last character. -/
def previous_visual_line (st : NavState) (visual_line_index line_offset : Nat)
    (_affinity : Affinity) : VisualLineM × Nat × Bool :=
  let prev := st.visual_lines.getD (max visual_line_index 1 - 1) default
  let folded := st.origin_folded_lines.getD prev.origin_folded_line default
  let scanned := scanNav true prev.origin_folded_line_sub_index folded.layouts 0
    line_offset
  let offset_line := cursor_position_of_final_col folded.phantoms
    folded.origin_len scanned.1
  (prev, offset_line, offset_line == scanned.2)

/-- `DocLines::next_visual_line` (mod.rs:687-721): the visual line at index
`min(index, len - 2) + 1`, with the same column mapping. -/
def next_visual_line (st : NavState) (visual_line_index line_offset : Nat)
    (_affinity : Affinity) : VisualLineM × Nat × Bool :=
  let next := st.visual_lines.getD
    (min visual_line_index (st.visual_lines.length - 2) + 1) default
  let folded := st.origin_folded_lines.getD next.origin_folded_line default
  let scanned := scanNav false next.origin_folded_line_sub_index folded.layouts 0
    line_offset
  let offset_line := cursor_position_of_final_col folded.phantoms
    folded.origin_len scanned.1
  (next, offset_line, offset_line == scanned.2)

/-- C10.  With at least two visual lines, the vertical-navigation index
arithmetic clamps at the document ends and stays in bounds:
`previous_visual_line` at index 0 returns visual line 0 itself,
`next_visual_line` at any index at or past the last returns the last visual
line, and both computed indices are valid positions of the vector. -/
theorem navigation_clamps_at_ends (st : NavState) (line_offset : Nat)
    (affinity : Affinity) (h2 : 2 ≤ st.visual_lines.length) :
    (previous_visual_line st 0 line_offset affinity).1 =
      st.visual_lines.getD 0 default ∧
    (∀ i, st.visual_lines.length - 1 ≤ i →
      (next_visual_line st i line_offset affinity).1 =
        st.visual_lines.getD (st.visual_lines.length - 1) default) ∧
    max 0 1 - 1 < st.visual_lines.length ∧
    (∀ i, min i (st.visual_lines.length - 2) + 1 < st.visual_lines.length) := by
  have h01 : max 0 1 = 1 := by decide
  refine ⟨rfl, ?_, by omega, ?_⟩
  · intro i hi
    rw [next_visual_line]
    have hmin : min i (st.visual_lines.length - 2) =
        st.visual_lines.length - 2 := min_eq_right (by omega)
    rw [hmin]
    have : st.visual_lines.length - 2 + 1 = st.visual_lines.length - 1 := by omega
    rw [this]
  · intro i
    have := min_le_right i (st.visual_lines.length - 2)
    omega

/-- C10, witness instantiation: two visual lines over one folded line of two
wrap segments. -/
theorem navigation_clamps_at_ends_witness :
    (previous_visual_line
        ⟨[⟨0, ⟨0, 2⟩, 0, 0, 0⟩, ⟨1, ⟨1, 3⟩, 0, 0, 1⟩], [⟨[2, 2], [], 4⟩]⟩
        0 0 Affinity.Forward).1 =
      List.getD [⟨0, ⟨0, 2⟩, 0, 0, 0⟩, ⟨1, ⟨1, 3⟩, 0, 0, 1⟩] 0 default ∧
    (∀ i, (List.length [(⟨0, ⟨0, 2⟩, 0, 0, 0⟩ : VisualLineM),
        ⟨1, ⟨1, 3⟩, 0, 0, 1⟩]) - 1 ≤ i →
      (next_visual_line
          ⟨[⟨0, ⟨0, 2⟩, 0, 0, 0⟩, ⟨1, ⟨1, 3⟩, 0, 0, 1⟩], [⟨[2, 2], [], 4⟩]⟩
          i 0 Affinity.Forward).1 =
        List.getD [⟨0, ⟨0, 2⟩, 0, 0, 0⟩, ⟨1, ⟨1, 3⟩, 0, 0, 1⟩]
          ((List.length [(⟨0, ⟨0, 2⟩, 0, 0, 0⟩ : VisualLineM),
            ⟨1, ⟨1, 3⟩, 0, 0, 1⟩]) - 1) default) ∧
    max 0 1 - 1 <
      List.length [(⟨0, ⟨0, 2⟩, 0, 0, 0⟩ : VisualLineM), ⟨1, ⟨1, 3⟩, 0, 0, 1⟩] ∧
    (∀ i, min i ((List.length [(⟨0, ⟨0, 2⟩, 0, 0, 0⟩ : VisualLineM),
        ⟨1, ⟨1, 3⟩, 0, 0, 1⟩]) - 2) + 1 <
      List.length [(⟨0, ⟨0, 2⟩, 0, 0, 0⟩ : VisualLineM), ⟨1, ⟨1, 3⟩, 0, 0, 1⟩]) :=
  navigation_clamps_at_ends
    ⟨[⟨0, ⟨0, 2⟩, 0, 0, 0⟩, ⟨1, ⟨1, 3⟩, 0, 0, 1⟩], [⟨[2, 2], [], 4⟩]⟩
    0 Affinity.Forward (by decide)

/-- Modelled from the spec: the signed index/offset shift of the
`delta_compute` module (not under `src/`) — `Offset::new(a, b)` maps position
`a` to position `b`. -/
inductive Offset where
  | none
  | add (v : Nat)
  | minus (v : Nat)
  deriving DecidableEq, Repr

def Offset.apply : Offset → Nat → Nat
  | Offset.none, x => x
  | Offset.add v, x => x + v
  | Offset.minus v, x => x - v

def Offset.new (a b : Nat) : Offset :=
  if a ≤ b then Offset.add (b - a) else Offset.minus (a - b)

/-- `OriginLine` of the `line` module (not under `src/`), modelled from the
spec's data model plus the `len` field `init_all_origin_line_new` reads
(`line.start_offset + line.len` is the line's end offset). -/
structure OriginLineN where
  line_index : Nat
  start_offset : Nat
  len : Nat
  deriving DecidableEq, Repr, Inhabited

/-- Modelled from the spec: `OriginLine::adjust` — reusing a copied line
shifts its `start_offset` by the edit's byte delta and its `line_index` by the
copied block's index delta (spec §4.2 steps 2 and 4). -/
def OriginLineN.adjust (x : OriginLineN) (offset : Offset) (line_offset : Offset) :
    OriginLineN :=
  { line_index := line_offset.apply x.line_index,
    start_offset := offset.apply x.start_offset, len := x.len }

/-- Modelled from the spec: `init_origin_line` of the `line` module (not under
`src/`) — re-derive one origin line from the text-storage primitive (spec
§4.1, §4.2 step 3). -/
def init_origin_line (b : Buffer) (l : Nat) : OriginLineN :=
  { line_index := l, start_offset := b.offset_of_line l, len := b.lineLen l }

/-- Modelled from the spec: the `DeltaPlan` produced by the `delta_compute`
module (not under `src/`) and unpacked by `origin_lines_delta` — the
prefix/recompute/suffix classification of spec §4.2 (the
`copy_line_end.line_offset` slot written back by `init_all_origin_line_new`
is omitted: it does not influence the returned vector). -/
structure OriginLinesDelta where
  recompute_first_line : Bool
  copy_line_start : Interval
  copy_line_start_offset : Offset
  recompute_line_start : Nat
  recompute_offset_end : Nat
  copy_line_end : Interval
  copy_line_end_offset : Offset
  recompute_last_line : Bool
  deriving DecidableEq, Repr

/-- `DocLines::copy_origin_line` (line/update_lines.rs:123-128): slice
`origin_lines[copy_line.start..copy_line.end]` of the previous snapshot,
each line adjusted by the byte-offset shift and by the index shift
`Offset::new(copy_line.start, line_index)`. -/
def copy_origin_line (old : List OriginLineN) (copy_line : Interval)
    (offset : Offset) (line_index : Nat) : List OriginLineN :=
  ((old.drop copy_line.start).take (copy_line.stop - copy_line.start)).map
    (fun x => x.adjust offset (Offset.new copy_line.start line_index))

/-- Recompute loop of `init_all_origin_line_new`
(line/update_lines.rs:29-36): re-derive lines from `recompute_line_start`
on, stopping (after the push) once a line's end offset reaches
`recompute_offset_end`; `fuel` is the remaining line count of the
`recompute_line_start..=last_line` range. -/
def recompute_lines (b : Buffer) (recompute_offset_end : Nat) :
    Nat → Nat → List OriginLineN
  | _, 0 => []
  | x, fuel + 1 =>
    let line := init_origin_line b x
    if recompute_offset_end ≤ line.start_offset + line.len then [line]
    else line :: recompute_lines b recompute_offset_end (x + 1) fuel

/-- `DocLines::init_all_origin_line_new` (line/update_lines.rs:12-48): the
incremental origin-line rebuild — optional first line, copied prefix
(index-shifted only), recomputed middle, copied suffix (index- and
offset-shifted, its block placed at `origin_lines.len()`), optional last
line. -/
def init_all_origin_line_new (b : Buffer) (old : List OriginLineN)
    (d : OriginLinesDelta) : List OriginLineN :=
  let firstPart := if d.recompute_first_line then [init_origin_line b 0] else []
  let part1 := if d.copy_line_start.isEmpty then [] else
    copy_origin_line old d.copy_line_start d.copy_line_start_offset
      firstPart.length
  let part2 := recompute_lines b d.recompute_offset_end d.recompute_line_start
    (b.lastLine + 1 - d.recompute_line_start)
  let part3 := if d.copy_line_end.isEmpty then [] else
    copy_origin_line old d.copy_line_end d.copy_line_end_offset
      (firstPart.length + (part1.length + part2.length))
  let part4 := if d.recompute_last_line then [init_origin_line b b.lastLine]
    else []
  firstPart ++ (part1 ++ (part2 ++ (part3 ++ part4)))

/-- The origin-line vector a full rebuild over the buffer produces: one line
per source line, re-derived from the text-storage primitive (spec §4.1
`build_all`; this is also what the `update_lines` walk yields per origin line
when no fold merges lines, cf. `update_lines_origin_of_id`). -/
def full_origin_rebuild (b : Buffer) : List OriginLineN :=
  (List.range' 0 (b.lastLine + 1)).map (init_origin_line b)

/-- Every line the recompute loop pushes is freshly derived from the buffer,
so the loop's output is the full-rebuild segment starting at its first
line. -/
theorem recompute_lines_eq_map (b : Buffer) (e : Nat) :
    ∀ fuel x, recompute_lines b e x fuel =
      (List.range' x (recompute_lines b e x fuel).length).map
        (init_origin_line b) := by
  intro fuel
  induction fuel with
  | zero => intro x; rfl
  | succ fuel ih =>
    intro x
    rw [recompute_lines]
    by_cases hbr : e ≤ (init_origin_line b x).start_offset + (init_origin_line b x).len
    · rw [if_pos hbr]
      simp
    · rw [if_neg hbr]
      simp only [List.length_cons, List.range'_succ, List.map_cons]
      congr 1
      exact ih (x + 1)

theorem range'_zero_append (k y t : Nat) (h : k + y = t) :
    List.range' 0 k ++ List.range' k y = List.range' 0 t := by
  have e1 : List.range' k y = List.range' (0 + k) y := by rw [Nat.zero_add]
  rw [e1, List.range'_append_1]
  congr 1
  omega

theorem range'_concat_five (k1 cs k2 ce k4 t : Nat)
    (h : k1 + cs + k2 + ce + k4 = t) :
    List.range' 0 k1 ++ (List.range' k1 cs ++ (List.range' (k1 + cs) k2 ++
      (List.range' (k1 + cs + k2) ce ++ List.range' (k1 + cs + k2 + ce) k4))) =
    List.range' 0 t := by
  rw [List.range'_append_1, List.range'_append_1, List.range'_append_1]
  exact range'_zero_append _ _ _ (by omega)

/-- C1.  The incremental origin-line recompute equals the full rebuild over
the post-edit buffer, for every delta plan whose prefix/recompute/suffix
classification is valid for that buffer: the copied prefix block, once
index-shifted, consists of exactly the full-rebuild lines at its target
positions (`hcs`); the recompute region starts right after the prefix
(`hrs`); the copied suffix block, index- and offset-shifted to the position
where the recompute loop stopped, consists of exactly the full-rebuild lines
there (`hce`); and the five segments together account for every line of the
buffer (`htot`).  Under these conditions — which hold for every edit shape
the classification produces: pure insert, pure delete, multi-line replace,
edits at line 0 or the last line, and the empty buffer (a single empty
line) — the result is element-for-element the full rebuild. -/
theorem init_all_origin_line_new_eq_full (b : Buffer) (old : List OriginLineN)
    (d : OriginLinesDelta)
    (hcs_le : d.copy_line_start.start ≤ d.copy_line_start.stop)
    (hce_le : d.copy_line_end.start ≤ d.copy_line_end.stop)
    (hcs : copy_origin_line old d.copy_line_start d.copy_line_start_offset
        (if d.recompute_first_line then 1 else 0) =
      (List.range' (if d.recompute_first_line then 1 else 0)
        (d.copy_line_start.stop - d.copy_line_start.start)).map
        (init_origin_line b))
    (hrs : d.recompute_line_start =
      (if d.recompute_first_line then 1 else 0) +
        (d.copy_line_start.stop - d.copy_line_start.start))
    (hce : copy_origin_line old d.copy_line_end d.copy_line_end_offset
        (d.recompute_line_start +
          (recompute_lines b d.recompute_offset_end d.recompute_line_start
            (b.lastLine + 1 - d.recompute_line_start)).length) =
      (List.range' (d.recompute_line_start +
          (recompute_lines b d.recompute_offset_end d.recompute_line_start
            (b.lastLine + 1 - d.recompute_line_start)).length)
        (d.copy_line_end.stop - d.copy_line_end.start)).map
        (init_origin_line b))
    (htot : d.recompute_line_start +
        (recompute_lines b d.recompute_offset_end d.recompute_line_start
          (b.lastLine + 1 - d.recompute_line_start)).length +
        (d.copy_line_end.stop - d.copy_line_end.start) +
        (if d.recompute_last_line then 1 else 0) = b.lastLine + 1) :
    init_all_origin_line_new b old d = full_origin_rebuild b := by
  have hk1 : (if d.recompute_first_line then [init_origin_line b 0] else
      []).length = (if d.recompute_first_line then 1 else 0) := by
    cases hf : d.recompute_first_line <;> simp
  have hA : (if d.recompute_first_line then [init_origin_line b 0] else []) =
      (List.range' 0 (if d.recompute_first_line then 1 else 0)).map
        (init_origin_line b) := by
    cases hf : d.recompute_first_line <;> simp
  have hB : (if d.copy_line_start.isEmpty then [] else
      copy_origin_line old d.copy_line_start d.copy_line_start_offset
        (if d.recompute_first_line then 1 else 0)) =
      (List.range' (if d.recompute_first_line then 1 else 0)
        (d.copy_line_start.stop - d.copy_line_start.start)).map
        (init_origin_line b) := by
    by_cases hemp : d.copy_line_start.isEmpty
    · have hz : d.copy_line_start.stop - d.copy_line_start.start = 0 := by
        simp only [Interval.isEmpty, decide_eq_true_eq] at hemp
        omega
      simp [hemp, hz]
    · simp only [hemp, Bool.false_eq_true, if_false]
      exact hcs
  have hlenB : (if d.copy_line_start.isEmpty then [] else
      copy_origin_line old d.copy_line_start d.copy_line_start_offset
        (if d.recompute_first_line then 1 else 0)).length =
      d.copy_line_start.stop - d.copy_line_start.start := by
    by_cases hemp : d.copy_line_start.isEmpty
    · have hz : d.copy_line_start.stop - d.copy_line_start.start = 0 := by
        simp only [Interval.isEmpty, decide_eq_true_eq] at hemp
        omega
      simp [hemp, hz]
    · simp only [hemp, Bool.false_eq_true, if_false]
      rw [hcs]
      simp
  have hD : (if d.copy_line_end.isEmpty then [] else
      copy_origin_line old d.copy_line_end d.copy_line_end_offset
        ((if d.recompute_first_line then 1 else 0) +
          ((d.copy_line_start.stop - d.copy_line_start.start) +
            (recompute_lines b d.recompute_offset_end d.recompute_line_start
              (b.lastLine + 1 - d.recompute_line_start)).length))) =
      (List.range' ((if d.recompute_first_line then 1 else 0) +
          (d.copy_line_start.stop - d.copy_line_start.start) +
          (recompute_lines b d.recompute_offset_end d.recompute_line_start
            (b.lastLine + 1 - d.recompute_line_start)).length)
        (d.copy_line_end.stop - d.copy_line_end.start)).map
        (init_origin_line b) := by
    by_cases hemp : d.copy_line_end.isEmpty
    · have hz : d.copy_line_end.stop - d.copy_line_end.start = 0 := by
        simp only [Interval.isEmpty, decide_eq_true_eq] at hemp
        omega
      simp [hemp, hz]
    · simp only [hemp, Bool.false_eq_true, if_false]
      rw [show (if d.recompute_first_line then 1 else 0) +
          ((d.copy_line_start.stop - d.copy_line_start.start) +
            (recompute_lines b d.recompute_offset_end d.recompute_line_start
              (b.lastLine + 1 - d.recompute_line_start)).length) =
          d.recompute_line_start +
            (recompute_lines b d.recompute_offset_end d.recompute_line_start
              (b.lastLine + 1 - d.recompute_line_start)).length by omega]
      rw [hce]
      congr 2
      omega
  have hE : (if d.recompute_last_line then [init_origin_line b b.lastLine]
      else []) =
      (List.range' ((if d.recompute_first_line then 1 else 0) +
          (d.copy_line_start.stop - d.copy_line_start.start) +
          (recompute_lines b d.recompute_offset_end d.recompute_line_start
            (b.lastLine + 1 - d.recompute_line_start)).length +
          (d.copy_line_end.stop - d.copy_line_end.start))
        (if d.recompute_last_line then 1 else 0)).map (init_origin_line b) := by
    cases hl : d.recompute_last_line
    · simp
    · rw [hl] at htot
      simp only [if_true] at htot
      simp only [if_true]
      rw [List.range'_one, List.map_cons, List.map_nil]
      congr 2
      omega
  rw [init_all_origin_line_new]
  rw [hk1, hlenB]
  rw [hA, hB, hD, hE, recompute_lines_eq_map b d.recompute_offset_end
    (b.lastLine + 1 - d.recompute_line_start) d.recompute_line_start, hrs]
  rw [full_origin_rebuild]
  rw [← List.map_append, ← List.map_append, ← List.map_append,
    ← List.map_append]
  congr 1
  rw [hrs] at htot
  simp only [List.length_map, List.length_range']
  exact range'_concat_five _ _ _ _ _ _ (by omega)

/-- C1, witness instantiation: one byte inserted into line 2 of a five-line
buffer (old line lengths `[2,2,1,2,2]`, new `[2,2,2,2,2]`): lines 0-1 are
copied unshifted, line 2 is recomputed (the loop stops at offset 6), lines
3-4 are copied with offsets shifted by `+1`, and the incremental result is
the full rebuild. -/
theorem init_all_origin_line_new_eq_full_witness :
    init_all_origin_line_new ⟨[2, 2, 2, 2, 2]⟩
        [⟨0, 0, 2⟩, ⟨1, 2, 2⟩, ⟨2, 4, 1⟩, ⟨3, 5, 2⟩, ⟨4, 7, 2⟩]
        ⟨false, ⟨0, 2⟩, Offset.none, 2, 6, ⟨3, 5⟩, Offset.add 1, false⟩ =
      full_origin_rebuild ⟨[2, 2, 2, 2, 2]⟩ :=
  init_all_origin_line_new_eq_full ⟨[2, 2, 2, 2, 2]⟩
    [⟨0, 0, 2⟩, ⟨1, 2, 2⟩, ⟨2, 4, 1⟩, ⟨3, 5, 2⟩, ⟨4, 7, 2⟩]
    ⟨false, ⟨0, 2⟩, Offset.none, 2, 6, ⟨3, 5⟩, Offset.add 1, false⟩
    (by decide) (by decide) (by decide) (by decide) (by decide) (by decide)

end Doc
